import Mathlib

/-!
Verification development for the `ideas-generator` Reddit-to-podcast pipeline.

The Python sources are shallowly embedded:
  * text (Python `str`) is modelled as `List Char`, so that `len`, `+`,
    slicing and `strip()` become list operations;
  * the sentence tokenizer (`nltk.sent_tokenize`) is an external library
    collaborator, so functions consuming its output are embedded as functions
    of the tokenized sentence list;
  * external IO (TTS provider calls, sqlite, the filesystem) is abstracted
    into explicit oracles / environment records, while all control flow,
    ordering and error-capture structure is translated from the source;
  * Python exception propagation is modelled with `Except`.
-/

/-! ## Text primitives (Python `str` as `List Char`) -/

/-- Python strings are modelled as lists of characters. -/
abbrev Str := List Char

/-- Whitespace test used by Python's `str.strip()`. -/
def isWs (c : Char) : Bool := c.isWhitespace

/-- Python `str.strip()`: drop whitespace from both ends. -/
def strip (s : Str) : Str :=
  ((s.dropWhile isWs).reverse.dropWhile isWs).reverse

/-- The string contains at least one non-whitespace character. -/
def hasNonWs (s : Str) : Bool := s.any (fun c => !isWs c)

/-- Neither the first nor the last character is whitespace. -/
def noEdgeWs (s : Str) : Bool :=
  (s.head?.all fun c => !isWs c) && (s.getLast?.all fun c => !isWs c)

/-! ### Lemmas about `strip` -/

theorem hasNonWs_dropWhile : ∀ {s : Str}, hasNonWs s = true →
    hasNonWs (s.dropWhile isWs) = true := by
  intro s
  induction s with
  | nil => intro h; simp [hasNonWs] at h
  | cons c cs ih =>
    intro h
    by_cases hc : isWs c = true
    · simp only [List.dropWhile_cons, hc, if_true]
      apply ih
      simp only [hasNonWs, List.any_cons, hc] at h ⊢
      simpa using h
    · simp only [List.dropWhile_cons, hc]
      exact h

theorem hasNonWs_reverse {s : Str} (h : hasNonWs s = true) :
    hasNonWs s.reverse = true := by
  simp only [hasNonWs, List.any_eq_true] at h ⊢
  obtain ⟨c, hc, hw⟩ := h
  exact ⟨c, by simpa using hc, hw⟩

theorem hasNonWs_ne_nil {s : Str} (h : hasNonWs s = true) : s ≠ [] := by
  intro hnil; subst hnil; simp [hasNonWs] at h

/-- Stripping a string with a non-whitespace character never yields empty. -/
theorem strip_ne_nil {s : Str} (h : hasNonWs s = true) : strip s ≠ [] := by
  unfold strip
  intro hcon
  have h1 : hasNonWs (s.dropWhile isWs) = true := hasNonWs_dropWhile h
  have h2 : hasNonWs (s.dropWhile isWs).reverse = true := hasNonWs_reverse h1
  have h3 : hasNonWs ((s.dropWhile isWs).reverse.dropWhile isWs) = true :=
    hasNonWs_dropWhile h2
  have h4 := hasNonWs_ne_nil h3
  rw [List.reverse_eq_nil_iff] at hcon
  exact h4 hcon

theorem head?_dropWhile_isWs (s : Str) :
    ∀ c, (s.dropWhile isWs).head? = some c → isWs c = false := by
  induction s with
  | nil => intro c h; simp at h
  | cons a as ih =>
    intro c h
    by_cases ha : isWs a = true
    · rw [List.dropWhile_cons, if_pos ha] at h
      exact ih c h
    · rw [List.dropWhile_cons, if_neg ha] at h
      simp only [List.head?_cons, Option.some.injEq] at h
      subst h
      simpa using ha

/-- Decomposition: a list is its right-strip followed by trailing whitespace. -/
theorem rstrip_decomp (d : Str) :
    d = (d.reverse.dropWhile isWs).reverse ++ (d.reverse.takeWhile isWs).reverse ∧
      ∀ c ∈ (d.reverse.takeWhile isWs).reverse, isWs c = true := by
  constructor
  · have h := List.takeWhile_append_dropWhile (p := isWs) (l := d.reverse)
    calc d = d.reverse.reverse := by rw [List.reverse_reverse]
    _ = (d.reverse.takeWhile isWs ++ d.reverse.dropWhile isWs).reverse := by rw [h]
    _ = (d.reverse.dropWhile isWs).reverse ++ (d.reverse.takeWhile isWs).reverse := by
          rw [List.reverse_append]
  · intro c hc
    rw [List.mem_reverse] at hc
    exact List.mem_takeWhile_imp hc

/-- The result of `strip` has no leading or trailing whitespace. -/
theorem noEdgeWs_strip (s : Str) : noEdgeWs (strip s) = true := by
  unfold noEdgeWs strip
  set d := s.dropWhile isWs with hd
  apply Bool.and_eq_true_iff.mpr
  constructor
  · -- head of the stripped string
    cases hh : (d.reverse.dropWhile isWs).reverse.head? with
    | none => simp
    | some c =>
      simp only [Option.all_some]
      -- head of strip s is head of d, because strip s is a prefix of d
      obtain ⟨hdec, _⟩ := rstrip_decomp d
      have hhead : d.head? = some c := by
        conv_lhs => rw [hdec]
        rw [List.head?_append, hh]
        rfl
      have hhead2 : (List.dropWhile isWs s).head? = some c := by
        rw [← hd]; exact hhead
      have := head?_dropWhile_isWs s c hhead2
      simp [this]
  · -- last of the stripped string
    cases hh : (d.reverse.dropWhile isWs).reverse.getLast? with
    | none => simp
    | some c =>
      simp only [Option.all_some]
      rw [List.getLast?_reverse] at hh
      have := head?_dropWhile_isWs d.reverse c hh
      simp [this]

/-! ### Words: canonical form for whitespace-equivalence -/

/-- Helper for `words`: `acc` holds the current (reversed) in-progress word. -/
def wordsAux (acc : Str) : Str → List Str
  | [] => if acc = [] then [] else [acc.reverse]
  | c :: cs =>
    if isWs c then
      (if acc = [] then [] else [acc.reverse]) ++ wordsAux [] cs
    else
      wordsAux (c :: acc) cs

/-- The maximal non-whitespace runs of a string, in order. Two strings are
whitespace-equivalent precisely when their `words` agree. -/
def words (s : Str) : List Str := wordsAux [] s

theorem wordsAux_nil (acc : Str) :
    wordsAux acc [] = if acc = [] then [] else [acc.reverse] := rfl

theorem wordsAux_ws {c : Char} (hc : isWs c = true) (acc : Str) (cs : Str) :
    wordsAux acc (c :: cs) = (if acc = [] then [] else [acc.reverse]) ++ wordsAux [] cs := by
  conv_lhs => rw [wordsAux]
  rw [if_pos hc]

theorem wordsAux_nonws {c : Char} (hc : isWs c = false) (acc : Str) (cs : Str) :
    wordsAux acc (c :: cs) = wordsAux (c :: acc) cs := by
  conv_lhs => rw [wordsAux]
  rw [if_neg (by simp [hc])]

/-- Splitting lemma: a whitespace separator splits the word stream. -/
theorem wordsAux_append_ws {sep : Char} (hsep : isWs sep = true) (t : Str) :
    ∀ (s : Str) (acc : Str), wordsAux acc (s ++ sep :: t) = wordsAux acc s ++ wordsAux [] t := by
  intro s
  induction s with
  | nil =>
    intro acc
    rw [List.nil_append, wordsAux_ws hsep, wordsAux_nil]
  | cons c cs ih =>
    intro acc
    by_cases hc : isWs c = true
    · rw [List.cons_append, wordsAux_ws hc, wordsAux_ws hc, ih [], List.append_assoc]
    · rw [List.cons_append, wordsAux_nonws (by simpa using hc),
        wordsAux_nonws (by simpa using hc)]
      exact ih _

theorem words_append_ws {sep : Char} (hsep : isWs sep = true) (s t : Str) :
    words (s ++ sep :: t) = words s ++ words t :=
  wordsAux_append_ws hsep t s []

theorem wordsAux_all_ws : ∀ (sp : Str), (∀ c ∈ sp, isWs c = true) →
    ∀ (acc : Str), wordsAux acc sp = if acc = [] then [] else [acc.reverse] := by
  intro sp
  induction sp with
  | nil => intro _ _; rfl
  | cons c cs ih =>
    intro h acc
    rw [wordsAux_ws (h c (by simp))]
    have h2 : wordsAux ([] : Str) cs = [] := by
      rw [ih (fun x hx => h x (by simp [hx])) []]
      rfl
    rw [h2, List.append_nil]

theorem wordsAux_append_all_ws {sp : Str} (h : ∀ c ∈ sp, isWs c = true) :
    ∀ (s : Str) (acc : Str), wordsAux acc (s ++ sp) = wordsAux acc s := by
  intro s
  induction s with
  | nil =>
    intro acc
    rw [List.nil_append, wordsAux_all_ws sp h, wordsAux_nil]
  | cons c cs ih =>
    intro acc
    by_cases hc : isWs c = true
    · rw [List.cons_append, wordsAux_ws hc, wordsAux_ws hc, ih []]
    · rw [List.cons_append, wordsAux_nonws (by simpa using hc),
        wordsAux_nonws (by simpa using hc)]
      exact ih _

theorem words_append_all_ws {sp : Str} (h : ∀ c ∈ sp, isWs c = true) (s : Str) :
    words (s ++ sp) = words s :=
  wordsAux_append_all_ws h s []

theorem words_cons_ws {c : Char} (hc : isWs c = true) (cs : Str) :
    words (c :: cs) = words cs := by
  rw [words, wordsAux_ws hc]
  rfl

theorem words_dropWhile (s : Str) : words (s.dropWhile isWs) = words s := by
  induction s with
  | nil => rfl
  | cons c cs ih =>
    by_cases hc : isWs c = true
    · rw [List.dropWhile_cons, if_pos hc, ih, words_cons_ws hc]
    · rw [List.dropWhile_cons, if_neg (by simp [hc])]

/-- Stripping does not change the word stream. -/
theorem words_strip (s : Str) : words (strip s) = words s := by
  unfold strip
  set d := s.dropWhile isWs with hd
  obtain ⟨hdec, hws⟩ := rstrip_decomp d
  have h1 : words d = words (d.reverse.dropWhile isWs).reverse := by
    conv_lhs => rw [hdec]
    exact words_append_all_ws hws _
  rw [← h1, hd, words_dropWhile]

/-! ## TextSegmenter: `semantic_chunking`
(`src/execution/reddit_analyzer/semantic_segmentation.py`, lines 16-36)

The Python function first tokenizes the text with `nltk.sent_tokenize`
(an external library collaborator), then greedily packs the sentences.
The embedding therefore takes the tokenized sentence list as input. -/

/-- One iteration of the packing loop (lines 25-31): state is
`(chunks, current_chunk)`.  The predictive length check is
`len(current_chunk) + len(sentence) + 1 <= max_chars`. -/
def chunkStep (max_chars : Nat) (acc : List Str × Str) (sentence : Str) :
    List Str × Str :=
  if acc.2.length + sentence.length + 1 ≤ max_chars then
    (acc.1, acc.2 ++ sentence ++ [' '])
  else
    (acc.1 ++ [strip acc.2], sentence ++ [' '])

/-- `semantic_chunking(text, max_chars)`: the loop over sentences followed by
the final `if current_chunk: chunks.append(current_chunk.strip())`. -/
def semantic_chunking (sentences : List Str) (max_chars : Nat) : List Str :=
  let r := sentences.foldl (chunkStep max_chars) ([], [])
  if r.2 ≠ [] then r.1 ++ [strip r.2] else r.1

/-- The string `current_chunk` corresponding to a group of packed sentences:
each sentence is followed by one space (line 28: `current_chunk += sentence + " "`). -/
def curStr (g : List Str) : Str := (g.map (fun s => s ++ [' '])).flatten

/-- Group-level mirror of `chunkStep`, used to show each chunk is a block of
consecutive sentences. -/
def groupStep (max_chars : Nat) (acc : List (List Str) × List Str) (sentence : Str) :
    List (List Str) × List Str :=
  if (curStr acc.2).length + sentence.length + 1 ≤ max_chars then
    (acc.1, acc.2 ++ [sentence])
  else
    (acc.1 ++ [acc.2], [sentence])

/-- The partition of the sentence list into the consecutive groups out of which
`semantic_chunking` builds its chunks. -/
def chunkGroups (sentences : List Str) (max_chars : Nat) : List (List Str) :=
  let r := sentences.foldl (groupStep max_chars) ([], [])
  if r.2 ≠ [] then r.1 ++ [r.2] else r.1

theorem curStr_nil : curStr [] = [] := rfl

theorem curStr_append_single (g : List Str) (s : Str) :
    curStr (g ++ [s]) = curStr g ++ (s ++ [' ']) := by
  unfold curStr
  rw [List.map_append, List.flatten_append]
  simp

theorem curStr_single (s : Str) : curStr [s] = s ++ [' '] := by
  unfold curStr
  simp

theorem curStr_eq_nil_iff (g : List Str) : curStr g = [] ↔ g = [] := by
  cases g with
  | nil => simp [curStr]
  | cons s gs =>
    constructor
    · intro h
      exfalso
      unfold curStr at h
      rw [List.map_cons, List.flatten_cons] at h
      rcases List.append_eq_nil.mp h with ⟨h1, _⟩
      rcases List.append_eq_nil.mp h1 with ⟨_, h2⟩
      simp at h2
    · intro h; simp at h

/-- The chunk fold and the group fold proceed in lock-step. -/
theorem foldl_chunk_group (max_chars : Nat) :
    ∀ (l : List Str) (a : List Str × Str) (b : List (List Str) × List Str),
      a.1 = b.1.map (fun g => strip (curStr g)) → a.2 = curStr b.2 →
      (l.foldl (chunkStep max_chars) a).1
          = ((l.foldl (groupStep max_chars) b).1).map (fun g => strip (curStr g)) ∧
        (l.foldl (chunkStep max_chars) a).2 = curStr (l.foldl (groupStep max_chars) b).2 := by
  intro l
  induction l with
  | nil => intro a b h1 h2; exact ⟨h1, h2⟩
  | cons s rest ih =>
    intro a b h1 h2
    rw [List.foldl_cons, List.foldl_cons]
    by_cases hfit : a.2.length + s.length + 1 ≤ max_chars
    · have hfit' : (curStr b.2).length + s.length + 1 ≤ max_chars := by rw [← h2]; exact hfit
      rw [chunkStep, if_pos hfit, groupStep, if_pos hfit']
      apply ih
      · exact h1
      · rw [curStr_append_single, ← h2, List.append_assoc]
    · have hfit' : ¬ (curStr b.2).length + s.length + 1 ≤ max_chars := by rw [← h2]; exact hfit
      rw [chunkStep, if_neg hfit, groupStep, if_neg hfit']
      apply ih
      · rw [List.map_append, h1, h2]
        rfl
      · rw [curStr_single]

/-- Every chunk is the stripped packed string of its sentence group. -/
theorem semantic_chunking_eq_groups (sentences : List Str) (max_chars : Nat) :
    semantic_chunking sentences max_chars
      = (chunkGroups sentences max_chars).map (fun g => strip (curStr g)) := by
  unfold semantic_chunking chunkGroups
  obtain ⟨h1, h2⟩ := foldl_chunk_group max_chars sentences ([], []) ([], []) rfl rfl
  set ra := sentences.foldl (chunkStep max_chars) ([], []) with hra
  set rb := sentences.foldl (groupStep max_chars) ([], []) with hrb
  by_cases hb : rb.2 = []
  · have ha : ra.2 = [] := by rw [h2, hb, curStr_nil]
    simp only [ha, hb]
    simpa using h1
  · have ha : ra.2 ≠ [] := by
      rw [h2]
      intro hcon
      exact hb ((curStr_eq_nil_iff rb.2).mp hcon)
    rw [if_pos ha, if_pos hb, List.map_append, h1, h2]
    rfl

/-- The groups partition the sentence list: no sentence is lost, duplicated or
reordered. -/
theorem foldl_group_flatten (max_chars : Nat) :
    ∀ (l : List Str) (b : List (List Str) × List Str),
      ((l.foldl (groupStep max_chars) b).1).flatten ++ (l.foldl (groupStep max_chars) b).2
        = b.1.flatten ++ b.2 ++ l := by
  intro l
  induction l with
  | nil => intro b; simp
  | cons s rest ih =>
    intro b
    rw [List.foldl_cons]
    by_cases hfit : (curStr b.2).length + s.length + 1 ≤ max_chars
    · rw [groupStep, if_pos hfit, ih]
      simp
    · rw [groupStep, if_neg hfit, ih]
      simp

theorem chunkGroups_flatten (sentences : List Str) (max_chars : Nat) :
    (chunkGroups sentences max_chars).flatten = sentences := by
  unfold chunkGroups
  have h := foldl_group_flatten max_chars sentences ([], [])
  set rb := sentences.foldl (groupStep max_chars) ([], []) with hrb
  simp only [List.flatten_nil, List.nil_append] at h
  by_cases hb : rb.2 = []
  · simp only [hb]
    simpa [hb] using h
  · rw [if_pos hb, List.flatten_append]
    simpa using h

/-! ### Further `strip` facts used for chunk properties -/

theorem length_dropWhile_le (p : Char → Bool) (l : Str) :
    (l.dropWhile p).length ≤ l.length := by
  induction l with
  | nil => simp
  | cons a as ih =>
    rw [List.dropWhile_cons]
    by_cases h : p a = true
    · rw [if_pos h]
      exact Nat.le_trans ih (Nat.le_succ _)
    · rw [if_neg h]

theorem strip_length_le (s : Str) : (strip s).length ≤ s.length := by
  unfold strip
  rw [List.length_reverse]
  calc ((s.dropWhile isWs).reverse.dropWhile isWs).length
      ≤ (s.dropWhile isWs).reverse.length := length_dropWhile_le _ _
    _ = (s.dropWhile isWs).length := List.length_reverse _
    _ ≤ s.length := length_dropWhile_le _ _

/-- Appending trailing whitespace does not change the stripped string. -/
theorem strip_append_all_ws {sp : Str} (h : ∀ c ∈ sp, isWs c = true) (s : Str) :
    strip (s ++ sp) = strip s := by
  unfold strip
  rw [List.dropWhile_append]
  by_cases he : (s.dropWhile isWs).isEmpty = true
  · rw [if_pos he]
    have h1 : sp.dropWhile isWs = [] := List.dropWhile_eq_nil_iff.mpr h
    have h2 : s.dropWhile isWs = [] := List.isEmpty_iff.mp he
    rw [h1, h2]
  · rw [if_neg he]
    rw [List.reverse_append]
    rw [List.dropWhile_append_of_pos (fun c hc => h c (List.mem_reverse.mp hc))]

theorem strip_append_space (s : Str) : strip (s ++ [' ']) = strip s :=
  strip_append_all_ws (by intro c hc; simp at hc; subst hc; rfl) s

/-! ### Chunk invariants of `semantic_chunking` -/

/-- Every emitted chunk is the strip of some accumulated string. -/
theorem foldl_chunk_strips (m : Nat) :
    ∀ (l : List Str) (a : List Str × Str),
      (∀ c ∈ a.1, ∃ x, c = strip x) →
      ∀ c ∈ (l.foldl (chunkStep m) a).1, ∃ x, c = strip x := by
  intro l
  induction l with
  | nil => intro a h; exact h
  | cons s rest ih =>
    intro a h
    rw [List.foldl_cons]
    by_cases hfit : a.2.length + s.length + 1 ≤ m
    · rw [chunkStep, if_pos hfit]
      exact ih _ h
    · rw [chunkStep, if_neg hfit]
      apply ih
      intro c hc
      rcases List.mem_append.mp hc with h1 | h2
      · exact h c h1
      · exact ⟨a.2, List.mem_singleton.mp h2⟩

theorem semantic_chunking_strips (sentences : List Str) (max_chars : Nat) :
    ∀ c ∈ semantic_chunking sentences max_chars, ∃ x, c = strip x := by
  unfold semantic_chunking
  set r := sentences.foldl (chunkStep max_chars) ([], []) with hr
  have hbase : ∀ c ∈ r.1, ∃ x, c = strip x := by
    rw [hr]
    exact foldl_chunk_strips max_chars sentences ([], []) (by simp)
  by_cases h2 : r.2 = []
  · simp only [h2]
    intro c hc
    simp only [ne_eq, not_true_eq_false, if_false] at hc
    exact hbase c hc
  · rw [if_pos h2]
    intro c hc
    rcases List.mem_append.mp hc with h1 | hx
    · exact hbase c h1
    · exact ⟨r.2, List.mem_singleton.mp hx⟩

theorem tail_append_single {l : List Str} (x : Str) (h : l ≠ []) :
    (l ++ [x]).tail = l.tail ++ [x] := by
  cases l with
  | nil => exact absurd rfl h
  | cons a as => rfl

/-- Fold invariant for non-emptiness of all chunks after the first. -/
theorem foldl_chunk_nonempty (m : Nat) :
    ∀ (l : List Str), (∀ s ∈ l, hasNonWs s = true) →
    ∀ (a : List Str × Str),
      (∀ c ∈ a.1.tail, c ≠ []) → (a.2 ≠ [] → hasNonWs a.2 = true) →
      (a.1 ≠ [] → a.2 ≠ []) →
      (∀ c ∈ (l.foldl (chunkStep m) a).1.tail, c ≠ []) ∧
      ((l.foldl (chunkStep m) a).2 ≠ [] → hasNonWs (l.foldl (chunkStep m) a).2 = true) ∧
      ((l.foldl (chunkStep m) a).1 ≠ [] → (l.foldl (chunkStep m) a).2 ≠ []) := by
  intro l
  induction l with
  | nil => intro _ a h1 h2 h3; exact ⟨h1, h2, h3⟩
  | cons s rest ih =>
    intro hl a h1 h2 h3
    have hs : hasNonWs s = true := hl s (by simp)
    have hrest : ∀ x ∈ rest, hasNonWs x = true := fun x hx => hl x (by simp [hx])
    rw [List.foldl_cons]
    by_cases hfit : a.2.length + s.length + 1 ≤ m
    · rw [chunkStep, if_pos hfit]
      apply ih hrest
      · exact h1
      · intro _
        simp only [hasNonWs, List.any_append] at *
        simp [hasNonWs] at hs
        simp [hs]
      · intro _; simp
    · rw [chunkStep, if_neg hfit]
      apply ih hrest
      · intro c hc
        by_cases ha : a.1 = []
        · rw [ha] at hc
          simp at hc
        · rw [tail_append_single _ ha] at hc
          rcases List.mem_append.mp hc with hc1 | hc2
          · exact h1 c hc1
          · rw [List.mem_singleton.mp hc2]
            exact strip_ne_nil (h2 (h3 ha))
      · intro _
        simp only [hasNonWs, List.any_append]
        simp [hasNonWs] at hs
        simp [hs]
      · intro _; simp

/-! ### Joining chunks with a single-space separator -/

/-- Concatenation with a single-space separator (the separator of the
round-trip property in the specification). -/
def joinSp : List Str → Str
  | [] => []
  | [s] => s
  | s :: s' :: ss => s ++ ' ' :: joinSp (s' :: ss)

theorem words_joinSp (l : List Str) :
    words (joinSp l) = (l.map words).flatten := by
  induction l with
  | nil => rfl
  | cons s ss ih =>
    cases ss with
    | nil => simp [joinSp]
    | cons s' ss' =>
      rw [joinSp, words_append_ws (by rfl), ih]
      simp

theorem words_curStr (g : List Str) :
    words (curStr g) = (g.map words).flatten := by
  induction g with
  | nil => rfl
  | cons s gs ih =>
    have hstep : curStr (s :: gs) = s ++ ' ' :: curStr gs := by
      unfold curStr
      rw [List.map_cons, List.flatten_cons, List.append_assoc]
      rfl
    rw [hstep, words_append_ws (by rfl), ih]
    simp

theorem flatten_map_flatten_words (groups : List (List Str)) :
    (groups.map (fun g => (g.map words).flatten)).flatten
      = ((groups.flatten).map words).flatten := by
  induction groups with
  | nil => rfl
  | cons g gs ih =>
    rw [List.map_cons, List.flatten_cons, ih, List.flatten_cons, List.map_append,
      List.flatten_append]

/-! ### Length bound invariant (soft cap, oversized single sentences) -/

/-- A chunk is either within the budget, or the strip of a single oversized
sentence (followed by its trailing space). -/
def chunkOK (S : List Str) (m : Nat) (c : Str) : Prop :=
  c.length ≤ m ∨ ∃ s ∈ S, m < s.length ∧ c = strip (s ++ [' '])

theorem flushOK {S : List Str} {m : Nat} {cur : Str}
    (h : cur = [] ∨ cur.length ≤ m ∨ ∃ s ∈ S, cur = s ++ [' ']) :
    chunkOK S m (strip cur) := by
  rcases h with h | h | ⟨s, hs, rfl⟩
  · left
    rw [h]
    exact Nat.zero_le m
  · left
    exact Nat.le_trans (strip_length_le cur) h
  · by_cases hlen : s.length ≤ m
    · left
      rw [strip_append_space]
      exact Nat.le_trans (strip_length_le s) hlen
    · right
      exact ⟨s, hs, Nat.lt_of_not_le hlen, rfl⟩

theorem foldl_chunk_lenbound (m : Nat) (S : List Str) :
    ∀ (l : List Str), (∀ s ∈ l, s ∈ S) →
    ∀ (a : List Str × Str),
      (∀ c ∈ a.1, chunkOK S m c) →
      (a.2 = [] ∨ a.2.length ≤ m ∨ ∃ s ∈ S, a.2 = s ++ [' ']) →
      (∀ c ∈ (l.foldl (chunkStep m) a).1, chunkOK S m c) ∧
      ((l.foldl (chunkStep m) a).2 = [] ∨ (l.foldl (chunkStep m) a).2.length ≤ m ∨
        ∃ s ∈ S, (l.foldl (chunkStep m) a).2 = s ++ [' ']) := by
  intro l
  induction l with
  | nil => intro _ a h1 h2; exact ⟨h1, h2⟩
  | cons s rest ih =>
    intro hl a h1 h2
    have hsS : s ∈ S := hl s (by simp)
    have hrest : ∀ x ∈ rest, x ∈ S := fun x hx => hl x (by simp [hx])
    rw [List.foldl_cons]
    by_cases hfit : a.2.length + s.length + 1 ≤ m
    · rw [chunkStep, if_pos hfit]
      apply ih hrest
      · exact h1
      · right; left
        have : (a.2 ++ s ++ [' ']).length = a.2.length + s.length + 1 := by
          simp [Nat.add_assoc]
        rw [this]
        exact hfit
    · rw [chunkStep, if_neg hfit]
      apply ih hrest
      · intro c hc
        rcases List.mem_append.mp hc with hc1 | hc2
        · exact h1 c hc1
        · rw [List.mem_singleton.mp hc2]
          exact flushOK h2
      · right; right
        exact ⟨s, hsS, rfl⟩

theorem semantic_chunking_lenbound (sentences : List Str) (max_chars : Nat) :
    ∀ c ∈ semantic_chunking sentences max_chars, chunkOK sentences max_chars c := by
  unfold semantic_chunking
  obtain ⟨h1, h2⟩ :=
    foldl_chunk_lenbound max_chars sentences sentences (fun _ hx => hx) ([], [])
      (by simp) (Or.inl rfl)
  set r := sentences.foldl (chunkStep max_chars) ([], []) with hr
  by_cases hnil : r.2 = []
  · simp only [hnil, ne_eq, not_true_eq_false, if_false]
    exact h1
  · rw [if_pos hnil]
    intro c hc
    rcases List.mem_append.mp hc with hc1 | hc2
    · exact h1 c hc1
    · rw [List.mem_singleton.mp hc2]
      exact flushOK h2

/-- Fold invariant: once a fitting first sentence is packed, every chunk and the
current accumulator stay non-empty. -/
theorem foldl_chunk_all_nonempty (m : Nat) :
    ∀ (l : List Str), (∀ s ∈ l, hasNonWs s = true) →
    ∀ (a : List Str × Str),
      (∀ c ∈ a.1, c ≠ []) → a.2 ≠ [] → hasNonWs a.2 = true →
      (∀ c ∈ (l.foldl (chunkStep m) a).1, c ≠ []) ∧
      (l.foldl (chunkStep m) a).2 ≠ [] ∧
      hasNonWs (l.foldl (chunkStep m) a).2 = true := by
  intro l
  induction l with
  | nil => intro _ a h1 h2 h3; exact ⟨h1, h2, h3⟩
  | cons s rest ih =>
    intro hl a h1 h2 h3
    have hs : hasNonWs s = true := hl s (by simp)
    have hrest : ∀ x ∈ rest, hasNonWs x = true := fun x hx => hl x (by simp [hx])
    rw [List.foldl_cons]
    by_cases hfit : a.2.length + s.length + 1 ≤ m
    · rw [chunkStep, if_pos hfit]
      apply ih hrest
      · exact h1
      · simp
      · simp only [hasNonWs, List.any_append]
        simp [hasNonWs] at hs
        simp [hs]
    · rw [chunkStep, if_neg hfit]
      apply ih hrest
      · intro c hc
        rcases List.mem_append.mp hc with hc1 | hc2
        · exact h1 c hc1
        · rw [List.mem_singleton.mp hc2]
          exact strip_ne_nil h3
      · simp
      · simp only [hasNonWs, List.any_append]
        simp [hasNonWs] at hs
        simp [hs]

/-! ## Claim C2 -/

/-- Claim C2, corrected.  Whenever every tokenized sentence contains a
non-whitespace character (which `nltk.sent_tokenize` output does), every chunk
returned by `semantic_chunking` is trimmed (no leading or trailing whitespace);
every chunk except possibly the first is non-empty; and if the first sentence
fits the budget (`len + 1 ≤ max_chars`) then every chunk, the first included,
is non-empty.  (The unamended claim — every chunk non-empty for every input —
fails: see the counterexample, where an oversized first sentence makes line 30
of `semantic_segmentation.py` append `"".strip()`.) -/
theorem c2_chunks_trimmed_nonempty (sentences : List Str) (max_chars : Nat)
    (hreal : ∀ s ∈ sentences, hasNonWs s = true) :
    (∀ c ∈ semantic_chunking sentences max_chars, noEdgeWs c = true)
    ∧ (∀ c ∈ (semantic_chunking sentences max_chars).tail, c ≠ [])
    ∧ (∀ s1 ss, sentences = s1 :: ss → s1.length + 1 ≤ max_chars →
        ∀ c ∈ semantic_chunking sentences max_chars, c ≠ []) := by
  refine ⟨?_, ?_, ?_⟩
  · intro c hc
    obtain ⟨x, rfl⟩ := semantic_chunking_strips sentences max_chars c hc
    exact noEdgeWs_strip x
  · unfold semantic_chunking
    obtain ⟨i1, i2, i3⟩ :=
      foldl_chunk_nonempty max_chars sentences hreal ([], [])
        (by simp) (by intro h; exact absurd rfl h) (by intro h; exact absurd rfl h)
    set r := sentences.foldl (chunkStep max_chars) ([], []) with hr
    by_cases hnil : r.2 = []
    · simp only [hnil, ne_eq, not_true_eq_false, if_false]
      exact i1
    · rw [if_pos hnil]
      by_cases hr1 : r.1 = []
      · rw [hr1]
        intro c hc
        simp at hc
      · rw [tail_append_single _ hr1]
        intro c hc
        rcases List.mem_append.mp hc with hc1 | hc2
        · exact i1 c hc1
        · rw [List.mem_singleton.mp hc2]
          exact strip_ne_nil (i2 hnil)
  · intro s1 ss hseq hfit c hc
    subst hseq
    have hstep : chunkStep max_chars ([], []) s1 = ([], s1 ++ [' ']) := by
      rw [chunkStep, if_pos (by simpa using hfit)]
      simp
    unfold semantic_chunking at hc
    rw [List.foldl_cons, hstep] at hc
    obtain ⟨j1, j2, j3⟩ :=
      foldl_chunk_all_nonempty max_chars ss (fun x hx => hreal x (by simp [hx]))
        ([], s1 ++ [' ']) (by simp) (by simp)
        (by
          simp only [hasNonWs, List.any_append]
          have := hreal s1 (by simp)
          simp [hasNonWs] at this
          simp [this])
    rw [if_pos j2] at hc
    rcases List.mem_append.mp hc with hc1 | hc2
    · exact j1 c hc1
    · rw [List.mem_singleton.mp hc2]
      exact strip_ne_nil j3

/-- Claim C2, counterexample to the claim as stated: a single tokenized
sentence of 16 characters with `max_chars = 15 > 0` makes `semantic_chunking`
emit an empty first chunk. -/
theorem c2_counterexample :
    ([] : Str) ∈ semantic_chunking [List.replicate 16 'a'] 15 ∧
      semantic_chunking [List.replicate 16 'a'] 15 = [[], List.replicate 16 'a'] := by
  constructor
  · decide
  · decide

/-- Witness for C2 at a concrete input. -/
theorem c2_chunks_trimmed_nonempty_witness :
    noEdgeWs ("Hi.".toList) = true ∧ ("Hi.".toList ≠ ([] : Str)) := by
  have h := c2_chunks_trimmed_nonempty ["Hi.".toList] 10 (by decide)
  exact ⟨h.1 _ (by decide), h.2.2 _ _ rfl (by decide) _ (by decide)⟩

/-! ## Claim C3 -/

/-- First sentence of the specification scenario. -/
def phraseUn : Str := "Phrase un.".toList

/-- Second sentence of the specification scenario. -/
def phraseDeux : Str := "Phrase deux.".toList

/-- Third sentence of the specification scenario. -/
def phraseTrois : Str := "Phrase trois.".toList

/-- Claim C3, confirmed.  Every chunk respects the character budget except that
a chunk may exceed `max_chars` only when it is exactly one oversized sentence
(the strip of that single sentence with its trailing space — never truncated,
never combined with other sentences); and segmenting the three-sentence
scenario text with `max_chars = 15` yields exactly the three sentences as
chunks, in order. -/
theorem c3_soft_cap :
    (∀ (sentences : List Str) (max_chars : Nat),
        ∀ c ∈ semantic_chunking sentences max_chars,
          c.length ≤ max_chars ∨
            ∃ s ∈ sentences, max_chars < s.length ∧ c = strip (s ++ [' '])) ∧
      semantic_chunking [phraseUn, phraseDeux, phraseTrois] 15
        = [phraseUn, phraseDeux, phraseTrois] := by
  constructor
  · intro sentences m c hc
    exact semantic_chunking_lenbound sentences m c hc
  · decide

/-- Witness for C3: the bound instantiated at the first scenario chunk. -/
theorem c3_soft_cap_witness :
    phraseUn.length ≤ 15 ∨
      ∃ s ∈ [phraseUn, phraseDeux, phraseTrois], 15 < s.length ∧
        phraseUn = strip (s ++ [' ']) :=
  c3_soft_cap.1 [phraseUn, phraseDeux, phraseTrois] 15 phraseUn (by decide)

/-! ## Claim C4 -/

/-- Claim C4, confirmed (relative to the tokenizer's output, `nltk.sent_tokenize`
being an external collaborator).  The chunks are exactly the strips of the packed
strings of a partition of the sentence list into consecutive groups: flattening
the groups returns the sentence list (each sentence is in exactly one chunk, in
the original order, none lost or duplicated), and joining the chunks with a
single-space separator is whitespace-equivalent (equal `words` streams) to
joining the sentences the tokenizer produced. -/
theorem c4_roundtrip (sentences : List Str) (max_chars : Nat) :
    semantic_chunking sentences max_chars
        = (chunkGroups sentences max_chars).map (fun g => strip (curStr g))
    ∧ (chunkGroups sentences max_chars).flatten = sentences
    ∧ words (joinSp (semantic_chunking sentences max_chars)) = words (joinSp sentences) := by
  refine ⟨semantic_chunking_eq_groups _ _, chunkGroups_flatten _ _, ?_⟩
  rw [semantic_chunking_eq_groups, words_joinSp, List.map_map]
  have hcomp : (words ∘ fun g => strip (curStr g))
      = fun g => (g.map words).flatten := by
    funext g
    show words (strip (curStr g)) = (g.map words).flatten
    rw [words_strip, words_curStr]
  rw [hcomp, flatten_map_flatten_words, chunkGroups_flatten, words_joinSp]

/-! ## SynthesisScheduler: `synthesize_multiple_segments`
(`src/execution/reddit_analyzer/synthesize_podcast_audio.py`, lines 59-96)

The external TTS call plus file write of `synthesize_segment` (lines 32-56,
catch-all `except` returning `None`) is abstracted as an oracle
`Nat → Segment → Option String` giving, for each global segment index, the
produced file name or `None` on failure.  `asyncio.gather` launches the tasks
of one batch concurrently and returns their results in task order regardless
of completion order: completion is modelled explicitly by a permutation of the
batch's indices which delivers each result into its slot; the slots are then
read out in task order. -/

/-- A segment record of the segments JSON: speaker role and text content. -/
structure Segment where
  speaker : Str
  content : Str
deriving DecidableEq

theorem getElem?_foldl_set (f : Nat → Option String) :
    ∀ (order : List Nat) (slots : List (Option String)) (i : Nat),
      (order.foldl (fun s j => s.set j (f j)) slots)[i]? =
        if i ∈ order ∧ i < slots.length then some (f i) else slots[i]? := by
  intro order
  induction order with
  | nil =>
    intro slots i
    simp
  | cons j rest ih =>
    intro slots i
    rw [List.foldl_cons, ih, List.length_set]
    by_cases hmem : i ∈ rest ∧ i < slots.length
    · rw [if_pos hmem, if_pos ⟨by simp [hmem.1], hmem.2⟩]
    · rw [if_neg hmem, List.getElem?_set]
      by_cases hij : j = i
      · subst hij
        by_cases hlen : j < slots.length
        · rw [if_pos rfl, if_pos hlen, if_pos ⟨by simp, hlen⟩]
        · rw [if_pos rfl, if_neg hlen, if_neg (fun hc => hlen hc.2)]
          exact (List.getElem?_eq_none (Nat.le_of_not_lt hlen)).symm
      · rw [if_neg hij]
        have hiff : (i ∈ j :: rest ∧ i < slots.length) ↔ (i ∈ rest ∧ i < slots.length) := by
          constructor
          · rintro ⟨h1, h2⟩
            rcases List.mem_cons.mp h1 with h | h
            · exact absurd h.symm hij
            · exact ⟨h, h2⟩
          · rintro ⟨h1, h2⟩
            exact ⟨by simp [h1], h2⟩
        rw [if_neg (fun hc => hmem (hiff.mp hc))]

/-- Completion model of one `asyncio.gather` batch: every delivery writes a
task's result into the task's slot; the batch resolves once every task
completed, and the results are read out in task order. -/
def fillSlots (results : List (Option String)) (order : List Nat) : List (Option String) :=
  order.foldl (fun slots j => slots.set j (results.getD j none))
    (List.replicate results.length none)

/-- Wherever the completion order is a permutation of the batch indices, the
gathered list is the task list in task order: completion order is invisible. -/
theorem fillSlots_perm (results : List (Option String)) (order : List Nat)
    (h : order.Perm (List.range results.length)) :
    fillSlots results order = results := by
  apply List.ext_getElem?
  intro i
  unfold fillSlots
  rw [getElem?_foldl_set (fun j => results.getD j none) order _ i, List.length_replicate]
  by_cases hi : i < results.length
  · have hmem : i ∈ order := h.mem_iff.mpr (List.mem_range.mpr hi)
    rw [if_pos ⟨hmem, hi⟩, List.getD_eq_getElem?_getD, List.getElem?_eq_getElem hi]
    rfl
  · have hmem : i ∉ order := by
      intro hc
      exact hi (List.mem_range.mp (h.mem_iff.mp hc))
    rw [if_neg (fun hc => hmem hc.1), List.getElem?_replicate, if_neg hi]
    exact (List.getElem?_eq_none (Nat.le_of_not_lt hi)).symm

/-- The task list of one batch: `for j, segment in enumerate(batch_segments):
task = synthesize_segment(segment, config, client, i + j)` (lines 80-83). -/
def batchTasks (oracle : Nat → Segment → Option String) :
    Nat → List Segment → List (Option String)
  | _, [] => []
  | start, s :: rest => oracle start s :: batchTasks oracle (start + 1) rest

theorem batchTasks_length (oracle : Nat → Segment → Option String) :
    ∀ (batch : List Segment) (start : Nat),
      (batchTasks oracle start batch).length = batch.length := by
  intro batch
  induction batch with
  | nil => intro start; rfl
  | cons s rest ih => intro start; simp [batchTasks, ih]

/-- The successful results in input (index) order: what the scheduler's
per-batch `extend([f for f in batch_results if f is not None])` accumulates. -/
def inOrderResults (oracle : Nat → Segment → Option String) :
    Nat → List Segment → List String
  | _, [] => []
  | i, s :: rest =>
    match oracle i s with
    | some f => f :: inOrderResults oracle (i + 1) rest
    | none => inOrderResults oracle (i + 1) rest

theorem inOrderResults_cons (oracle : Nat → Segment → Option String)
    (i : Nat) (s : Segment) (rest : List Segment) :
    inOrderResults oracle i (s :: rest) =
      match oracle i s with
      | some f => f :: inOrderResults oracle (i + 1) rest
      | none => inOrderResults oracle (i + 1) rest := rfl

theorem filterMap_batchTasks (oracle : Nat → Segment → Option String) :
    ∀ (batch : List Segment) (start : Nat),
      (batchTasks oracle start batch).filterMap id = inOrderResults oracle start batch := by
  intro batch
  induction batch with
  | nil => intro start; rfl
  | cons s rest ih =>
    intro start
    rw [batchTasks, List.filterMap_cons, inOrderResults_cons]
    cases h : oracle start s with
    | some f => simp [ih]
    | none => simp [ih]

theorem inOrderResults_append (oracle : Nat → Segment → Option String) :
    ∀ (l1 l2 : List Segment) (start : Nat),
      inOrderResults oracle start (l1 ++ l2)
        = inOrderResults oracle start l1
            ++ inOrderResults oracle (start + l1.length) l2 := by
  intro l1
  induction l1 with
  | nil => intro l2 start; simp [inOrderResults]
  | cons s rest ih =>
    intro l2 start
    rw [List.cons_append, inOrderResults_cons, inOrderResults_cons]
    have hlen : start + 1 + rest.length = start + (s :: rest).length := by
      simp
      omega
    cases h : oracle start s with
    | some f =>
      simp only []
      rw [ih l2 (start + 1), hlen]
      rfl
    | none =>
      simp only []
      rw [ih l2 (start + 1), hlen]

/-- The batched loop of `synthesize_multiple_segments` (lines 74-93):
`for i in range(0, len(segments), max_concurrent)` processes
`segments[i : i + max_concurrent]` per iteration, gathers the whole batch,
appends the non-`None` results, then moves to the next batch.  `orders`
supplies each batch's completion order (head first).  The Python `range` with
step 0 raises `ValueError`; in the model `max_concurrent = 0` behaves like 1,
and every claim assumes `max_concurrent ≥ 1`. -/
def synthBatches (oracle : Nat → Segment → Option String) (k : Nat) :
    Nat → List Segment → List (List Nat) → List String
  | _, [], _ => []
  | start, s :: rest, orders =>
    (fillSlots (batchTasks oracle start (s :: rest.take (k - 1)))
        (orders.headD (List.range (s :: rest.take (k - 1)).length))).filterMap id
      ++ synthBatches oracle k (start + k) (rest.drop (k - 1)) orders.tail
termination_by _ segs _ => segs.length
decreasing_by simp [List.length_drop]; omega

/-- `synthesize_multiple_segments(segments, config, max_concurrent)`: the whole
run starting at global index 0. -/
def synthesize_multiple_segments (oracle : Nat → Segment → Option String)
    (segments : List Segment) (max_concurrent : Nat)
    (orders : List (List Nat)) : List String :=
  synthBatches oracle max_concurrent 0 segments orders

/-- The consecutive batches `segments[i : i + max_concurrent]` the loop
dispatches. -/
def toBatches (k : Nat) : List Segment → List (List Segment)
  | [] => []
  | s :: rest => (s :: rest.take (k - 1)) :: toBatches k (rest.drop (k - 1))
termination_by segs => segs.length
decreasing_by simp [List.length_drop]; omega

/-- Every supplied completion order is a permutation of its batch's indices
(each task completes exactly once). -/
def ordersMatch (k : Nat) : List Segment → List (List Nat) → Prop
  | [], _ => True
  | s :: rest, orders =>
    (orders.headD (List.range (s :: rest.take (k - 1)).length)).Perm
        (List.range (s :: rest.take (k - 1)).length)
    ∧ ordersMatch k (rest.drop (k - 1)) orders.tail
termination_by segs _ => segs.length
decreasing_by simp [List.length_drop]; omega

/-- The default completion order (task order itself) always matches. -/
theorem ordersMatch_nil (k : Nat) : (segs : List Segment) → ordersMatch k segs []
  | [] => by rw [ordersMatch]; trivial
  | s :: rest => by
    rw [ordersMatch]
    exact ⟨by simp, ordersMatch_nil k (rest.drop (k - 1))⟩
termination_by segs => segs.length
decreasing_by simp [List.length_drop]; omega

/-- Scheduler correctness: for any completion orders that are per-batch
permutations, the output is exactly the successful results in input order. -/
theorem synthBatches_eq (oracle : Nat → Segment → Option String) (k : Nat)
    (hk : 0 < k) :
    (segs : List Segment) → (start : Nat) → (orders : List (List Nat)) →
    ordersMatch k segs orders →
    synthBatches oracle k start segs orders = inOrderResults oracle start segs
  | [], start, orders, _ => by rw [synthBatches]; rfl
  | s :: rest, start, orders, hmatch => by
    rw [ordersMatch] at hmatch
    obtain ⟨hperm, hrest⟩ := hmatch
    rw [synthBatches,
      fillSlots_perm _ _ (by rw [batchTasks_length]; exact hperm),
      filterMap_batchTasks,
      synthBatches_eq oracle k hk (rest.drop (k - 1)) (start + k) orders.tail hrest]
    by_cases hnil : rest.drop (k - 1) = []
    · rw [hnil]
      have htake : rest.take (k - 1) = rest :=
        List.take_of_length_le (List.drop_eq_nil_iff.mp hnil)
      rw [htake]
      simp [inOrderResults]
    · have hklen : k - 1 ≤ rest.length := by
        by_contra hcon
        exact hnil (List.drop_eq_nil_of_le (Nat.le_of_not_le hcon))
      have hsplit : s :: rest = (s :: rest.take (k - 1)) ++ rest.drop (k - 1) := by
        rw [List.cons_append, List.take_append_drop]
      conv_rhs => rw [hsplit]
      rw [inOrderResults_append]
      have hblen : start + (s :: rest.take (k - 1)).length = start + k := by
        simp [List.length_take]
        omega
      rw [hblen]
termination_by segs _ _ _ => segs.length
decreasing_by simp [List.length_drop]; omega

theorem toBatches_flatten (k : Nat) (hk : 0 < k) :
    (segs : List Segment) → (toBatches k segs).flatten = segs
  | [] => by rw [toBatches]; rfl
  | s :: rest => by
    rw [toBatches, List.flatten_cons, toBatches_flatten k hk (rest.drop (k - 1)),
      List.cons_append, List.take_append_drop]
termination_by segs => segs.length
decreasing_by simp [List.length_drop]; omega

theorem toBatches_size (k : Nat) (hk : 0 < k) :
    (segs : List Segment) → ∀ b ∈ toBatches k segs, b.length ≤ k
  | [] => by rw [toBatches]; intro b hb; simp at hb
  | s :: rest => by
    rw [toBatches]
    intro b hb
    rcases List.mem_cons.mp hb with rfl | h
    · simp [List.length_take]
      omega
    · exact toBatches_size k hk (rest.drop (k - 1)) b h
termination_by segs => segs.length
decreasing_by simp [List.length_drop]; omega

/-! ## Claim C5 -/

/-- Claim C5, confirmed.  For every chunk list, every concurrency limit ≥ 1 and
every per-batch completion-order permutation, the scheduler's output is the
successful clips in exactly the input order (`inOrderResults`, independent of
the completion orders), and the dispatch structure is consecutive batches of
size at most the limit whose concatenation is the input, each batch fully
gathered before the next starts (the recursion of `synthBatches` appends the
completed batch before touching the rest). -/
theorem c5_scheduler_order (oracle : Nat → Segment → Option String)
    (segments : List Segment) (max_concurrent : Nat) (orders : List (List Nat))
    (hk : 0 < max_concurrent) (hord : ordersMatch max_concurrent segments orders) :
    synthesize_multiple_segments oracle segments max_concurrent orders
        = inOrderResults oracle 0 segments
    ∧ (toBatches max_concurrent segments).flatten = segments
    ∧ ∀ b ∈ toBatches max_concurrent segments, b.length ≤ max_concurrent :=
  ⟨synthBatches_eq oracle max_concurrent hk segments 0 orders hord,
    toBatches_flatten max_concurrent hk segments,
    toBatches_size max_concurrent hk segments⟩

/-- Example segments for concrete scheduler runs. -/
def segHost : Segment := ⟨"HOST".toList, "Bonjour a tous.".toList⟩

/-- Second example segment. -/
def segExpert : Segment := ⟨"EXPERT".toList, "Premiere idee.".toList⟩

/-- An oracle whose every synthesis call succeeds. -/
def oracleOk : Nat → Segment → Option String := fun i _ => some ("clip" ++ toString i)

/-- Witness for C5: three segments, limit 2, first batch completing out of
order (slot 1 before slot 0). -/
theorem c5_scheduler_order_witness :
    synthesize_multiple_segments oracleOk [segHost, segExpert, segHost] 2 [[1, 0], [0]]
        = inOrderResults oracleOk 0 [segHost, segExpert, segHost]
    ∧ (toBatches 2 [segHost, segExpert, segHost]).flatten = [segHost, segExpert, segHost]
    ∧ ∀ b ∈ toBatches 2 [segHost, segExpert, segHost], b.length ≤ 2 :=
  c5_scheduler_order oracleOk [segHost, segExpert, segHost] 2 [[1, 0], [0]]
    (by decide)
    (by
      simp [ordersMatch]
      exact ⟨by decide, by decide⟩)

/-! ## Claim C6 -/

/-- The global indices of the chunks whose synthesis call failed (returned
`None`).  The source only prints these (line 55); it does not return them. -/
def failedIndices (oracle : Nat → Segment → Option String) :
    Nat → List Segment → List Nat
  | _, [] => []
  | i, s :: rest =>
    match oracle i s with
    | some _ => failedIndices oracle (i + 1) rest
    | none => i :: failedIndices oracle (i + 1) rest

theorem inOrder_failed_length (oracle : Nat → Segment → Option String) :
    ∀ (segs : List Segment) (i : Nat),
      (inOrderResults oracle i segs).length + (failedIndices oracle i segs).length
        = segs.length := by
  intro segs
  induction segs with
  | nil => intro i; rfl
  | cons s rest ih =>
    intro i
    rw [inOrderResults_cons]
    cases h : oracle i s with
    | some f =>
      simp only [failedIndices, h, List.length_cons]
      have := ih (i + 1)
      omega
    | none =>
      simp only [failedIndices, h, List.length_cons]
      have := ih (i + 1)
      omega

/-- Claim C6, corrected.  A failed call yields a `None` slot which is skipped;
the scheduler keeps processing the rest of the batch and all later batches and
returns the partial sequence of successful clips in input order — every chunk
is accounted for as either a returned clip or a failed index.  The unamended
claim also asserts the failed chunks' indices are part of the return value;
they are not (they are only printed), see the counterexample. -/
theorem c6_failure_containment (oracle : Nat → Segment → Option String)
    (segments : List Segment) (max_concurrent : Nat) (orders : List (List Nat))
    (hk : 0 < max_concurrent) (hord : ordersMatch max_concurrent segments orders) :
    synthesize_multiple_segments oracle segments max_concurrent orders
        = inOrderResults oracle 0 segments
    ∧ (synthesize_multiple_segments oracle segments max_concurrent orders).length
        + (failedIndices oracle 0 segments).length = segments.length := by
  have h := synthBatches_eq oracle max_concurrent hk segments 0 orders hord
  refine ⟨h, ?_⟩
  unfold synthesize_multiple_segments
  rw [h]
  exact inOrder_failed_length oracle segments 0

/-- An oracle failing exactly at global index 1. -/
def oracleFailSecond : Nat → Segment → Option String :=
  fun i _ => if i = 0 then some "clip0" else none

/-- An oracle failing exactly at global index 0. -/
def oracleFailFirst : Nat → Segment → Option String :=
  fun i _ => if i = 0 then none else some "clip1"

/-- Claim C6, counterexample to the claim as stated.  The scheduler does keep
going after a failure (second conjunct: the chunk after a failed one is still
synthesized and returned), but its return value carries no failed-index list:
the two-segment run whose second chunk fails returns exactly the same value as
the one-segment run with no failure at all, although their failed-index sets
differ — so the returned value cannot contain the failed chunks' indices. -/
theorem c6_counterexample :
    synthesize_multiple_segments oracleFailSecond [segHost, segExpert] 3 [] = ["clip0"]
    ∧ synthesize_multiple_segments oracleFailFirst [segHost, segExpert] 3 [] = ["clip1"]
    ∧ synthesize_multiple_segments oracleFailSecond [segHost] 3 [] = ["clip0"]
    ∧ failedIndices oracleFailSecond 0 [segHost, segExpert] = [1]
    ∧ failedIndices oracleFailSecond 0 [segHost] = [] := by
  refine ⟨?_, ?_, ?_, by decide, by decide⟩
  · exact (synthBatches_eq oracleFailSecond 3 (by decide) [segHost, segExpert] 0 []
      (ordersMatch_nil 3 _)).trans (by decide)
  · exact (synthBatches_eq oracleFailFirst 3 (by decide) [segHost, segExpert] 0 []
      (ordersMatch_nil 3 _)).trans (by decide)
  · exact (synthBatches_eq oracleFailSecond 3 (by decide) [segHost] 0 []
      (ordersMatch_nil 3 _)).trans (by decide)

/-- Witness for C6 at a concrete input: limit 3, second chunk failing. -/
theorem c6_failure_containment_witness :
    synthesize_multiple_segments oracleFailSecond [segHost, segExpert] 3 []
        = inOrderResults oracleFailSecond 0 [segHost, segExpert]
    ∧ (synthesize_multiple_segments oracleFailSecond [segHost, segExpert] 3 []).length
        + (failedIndices oracleFailSecond 0 [segHost, segExpert]).length = 2 :=
  c6_failure_containment oracleFailSecond [segHost, segExpert] 3 []
    (by decide) (ordersMatch_nil 3 _)

/-! ## Claim C7: retry behavior of the individual TTS call
(`src/execution/reddit_analyzer/synthesize_podcast_audio.py`, lines 32-56) -/

/-- Outcome of one provider call: success with a clip, a transient error
(rate limiting / quota), or a permanent error. -/
inductive CallOutcome
  | ok (clip : String)
  | rateLimited
  | apiError (msg : String)
deriving DecidableEq

/-- The `try` body of `synthesize_segment` makes exactly one
`client.audio.speech.create` call; any exception whatsoever is caught by the
catch-all `except` (line 54) and the function returns `None`.  `calls n` is
the outcome the provider would give the n-th attempt for this chunk; the
result pairs the returned value with the number of provider calls made. -/
def synthesize_segment_result (calls : Nat → CallOutcome) : Option String × Nat :=
  match calls 0 with
  | .ok clip => (some clip, 1)
  | .rateLimited => (none, 1)
  | .apiError _ => (none, 1)

/-- Modelled from the spec: the retry policy of sections 4.2 and 7 — transient
provider errors retried with fixed backoff up to a bounded number of attempts,
permanent errors never retried.  No such loop exists around the TTS call in
the source (the only fixed-backoff retry loop is in `run_analysis`,
`run_graph.py` lines 296-309, around the text-generation call). -/
def synthesizeWithRetrySpec (calls : Nat → CallOutcome) :
    Nat → Nat → Option String × Nat
  | 0, i => (none, i)
  | n + 1, i =>
    match calls i with
    | .ok clip => (some clip, i + 1)
    | .rateLimited => synthesizeWithRetrySpec calls n (i + 1)
    | .apiError _ => (none, i + 1)

/-- A provider that is rate-limited on the first call and succeeds on the
second. -/
def callsTransientFirst : Nat → CallOutcome :=
  fun i => if i = 0 then .rateLimited else .ok "clip"

/-- Claim C7, counterexample to the claim as stated: on a transient
(rate-limit) error the source call fails the chunk after a single attempt,
although one retry would have succeeded — there is no retry or backoff at the
individual TTS call level (the spec-modelled retrying call succeeds on the
same outcome stream). -/
theorem c7_counterexample :
    synthesize_segment_result callsTransientFirst = (none, 1)
    ∧ synthesizeWithRetrySpec callsTransientFirst 3 0 = (some "clip", 2) := by
  constructor
  · decide
  · decide

/-- Claim C7, corrected: each individual speech-synthesis call makes exactly
one provider attempt; every error — transient (rate limit / quota) or
permanent — fails only that chunk (the call returns `None` instead of raising)
with no retry and no backoff. -/
theorem c7_no_retry (calls : Nat → CallOutcome) :
    (synthesize_segment_result calls).2 = 1
    ∧ (∀ clip, calls 0 = .ok clip →
        synthesize_segment_result calls = (some clip, 1))
    ∧ (calls 0 = .rateLimited → synthesize_segment_result calls = (none, 1))
    ∧ (∀ msg, calls 0 = .apiError msg →
        synthesize_segment_result calls = (none, 1)) := by
  refine ⟨?_, ?_, ?_, ?_⟩
  · unfold synthesize_segment_result
    cases calls 0 <;> rfl
  · intro clip h
    unfold synthesize_segment_result
    rw [h]
  · intro h
    unfold synthesize_segment_result
    rw [h]
  · intro msg h
    unfold synthesize_segment_result
    rw [h]

/-- Witness for C7 at a concrete outcome stream. -/
theorem c7_no_retry_witness :
    synthesize_segment_result callsTransientFirst = (none, 1) ∧
      (synthesize_segment_result callsTransientFirst).2 = 1 :=
  ⟨(c7_no_retry callsTransientFirst).2.2.1 (by decide),
    (c7_no_retry callsTransientFirst).1⟩

/-! ## Ingestion store: `save_posts`
(`src/execution/reddit_analyzer/collector.py`, lines 62-76; the same
insert-and-catch loop is inlined in `collect_data_node`,
`run_graph.py` lines 376-392) -/

/-- A row of the `posts` table (all TEXT columns; `id` is the PRIMARY KEY). -/
structure Post where
  id : String
  title : String
  link : String
  published : String
  summary : String
  subreddit : String
  fetched_at : String
deriving DecidableEq

/-- Whether the table already stores a row with this id. -/
def containsId (table : List Post) (i : String) : Bool :=
  table.any (fun q => q.id == i)

/-- One `INSERT INTO posts ... VALUES (...)`: `id` is the PRIMARY KEY, so
sqlite raises `IntegrityError` when a row with the same id exists; the caller
catches it (`except sqlite3.IntegrityError: pass`) and the table is unchanged.
No error escapes the storage boundary: the function is total. -/
def insertPost (table : List Post) (p : Post) : List Post :=
  if containsId table p.id then table else table ++ [p]

/-- `save_posts`: insert each post in order, duplicates rejected silently. -/
def save_posts (table : List Post) (posts : List Post) : List Post :=
  posts.foldl insertPost table

/-- Number of stored rows carrying the given id. -/
def countId (table : List Post) (i : String) : Nat :=
  table.countP (fun q => q.id == i)

theorem containsId_false_countId {t : List Post} {i : String}
    (h : containsId t i = false) : countId t i = 0 := by
  rw [countId, List.countP_eq_zero]
  intro q hq hc
  have htrue : containsId t i = true := by
    rw [containsId]
    exact List.any_eq_true.mpr ⟨q, hq, hc⟩
  rw [htrue] at h
  simp at h

theorem containsId_true_countId {t : List Post} {i : String}
    (h : containsId t i = true) : 1 ≤ countId t i := by
  rw [countId]
  simp only [containsId, List.any_eq_true] at h
  obtain ⟨q, hq, hqi⟩ := h
  calc 1 = [q].countP (fun r => r.id == i) := by simp [hqi]
  _ ≤ t.countP (fun r => r.id == i) := by
      apply List.Sublist.countP_le
      simpa using List.singleton_sublist.mpr hq

theorem countId_append_single (t : List Post) (p : Post) :
    countId (t ++ [p]) p.id = countId t p.id + 1 := by
  rw [countId, List.countP_append, countId]
  simp

theorem containsId_insert_self (t : List Post) (p : Post) :
    containsId (insertPost t p) p.id = true := by
  unfold insertPost
  by_cases h : containsId t p.id = true
  · rw [if_pos h]
    exact h
  · rw [if_neg h]
    simp [containsId, List.any_append]

/-- Re-inserting posts with an already-stored id never changes the table. -/
theorem save_posts_dup (p : Post) :
    ∀ (qs : List Post) (t : List Post), (∀ q ∈ qs, q.id = p.id) →
      containsId t p.id = true → save_posts t qs = t := by
  intro qs
  induction qs with
  | nil => intro t _ _; rfl
  | cons q rest ih =>
    intro t hqs hc
    have hq : q.id = p.id := hqs q (by simp)
    have hins : insertPost t q = t := by
      unfold insertPost
      rw [hq, if_pos hc]
    rw [save_posts, List.foldl_cons, hins]
    exact ih t (fun r hr => hqs r (by simp [hr])) hc

/-! ## Claim C8 -/

/-- Claim C8, confirmed.  Under the primary-key invariant (at most one stored
row per id), inserting an item and then any number of further items with the
same id leaves exactly one stored record with that id; when the id was new,
the table is the original plus that single record — the later inserts are
rejected without any error escaping the storage boundary (`insertPost` and
`save_posts` are total: the `IntegrityError` is caught inside). -/
theorem c8_idempotent_ingestion (t : List Post) (p : Post) (qs : List Post)
    (hqs : ∀ q ∈ qs, q.id = p.id) (hpk : countId t p.id ≤ 1) :
    countId (save_posts t (p :: qs)) p.id = 1
    ∧ (countId t p.id = 0 → save_posts t (p :: qs) = t ++ [p]) := by
  have hstep : save_posts t (p :: qs) = save_posts (insertPost t p) qs := by
    rw [save_posts, List.foldl_cons]
    rfl
  by_cases hc : containsId t p.id = true
  · have h1 : insertPost t p = t := by unfold insertPost; rw [if_pos hc]
    have hsp : save_posts t (p :: qs) = t := by
      rw [hstep, h1]
      exact save_posts_dup p qs t hqs hc
    constructor
    · rw [hsp]
      exact Nat.le_antisymm hpk (containsId_true_countId hc)
    · intro h0
      exact absurd (containsId_true_countId hc) (by omega)
  · have hc' : containsId t p.id = false := by simpa using hc
    have h1 : insertPost t p = t ++ [p] := by unfold insertPost; rw [if_neg hc]
    have hc2 : containsId (t ++ [p]) p.id = true := by
      have := containsId_insert_self t p
      rwa [h1] at this
    have hsp : save_posts t (p :: qs) = t ++ [p] := by
      rw [hstep, h1]
      exact save_posts_dup p qs (t ++ [p]) hqs hc2
    constructor
    · rw [hsp, countId_append_single, containsId_false_countId hc']
    · intro _
      exact hsp

/-- A stored post used for witnesses. -/
def postA : Post :=
  ⟨"reddit-post-1", "title A", "link A", "pub A", "sum A", "subA", "t0"⟩

/-- A different post carrying the same id as `postA`. -/
def postB : Post :=
  ⟨"reddit-post-1", "title B", "link B", "pub B", "sum B", "subB", "t1"⟩

/-- Witness for C8: inserting the same item twice into an empty store. -/
theorem c8_idempotent_ingestion_witness :
    countId (save_posts [] [postA, postA]) postA.id = 1
    ∧ (countId [] postA.id = 0 → save_posts [] [postA, postA] = [] ++ [postA]) :=
  c8_idempotent_ingestion [] postA [postA] (by decide) (by decide)

/-! ## Claim C10 -/

/-- Claim C10, confirmed.  Inserting a post whose id is already stored leaves
the table completely unchanged — in particular every field (title, link,
published, summary, subreddit, fetched_at) of the previously stored record is
untouched, and nothing of the duplicate's values is merged in. -/
theorem c10_duplicate_discarded (t : List Post) (p q : Post)
    (hq : q ∈ t) (hid : q.id = p.id) :
    save_posts t [p] = t ∧ q ∈ save_posts t [p] := by
  have hc : containsId t p.id = true := by
    simp only [containsId, List.any_eq_true]
    exact ⟨q, hq, by simp [hid]⟩
  have h1 : save_posts t [p] = t := by
    rw [save_posts, List.foldl_cons, List.foldl_nil]
    unfold insertPost
    rw [if_pos hc]
  exact ⟨h1, by rw [h1]; exact hq⟩

/-- Witness for C10: a duplicate insert with different field values leaves the
original record intact. -/
theorem c10_duplicate_discarded_witness :
    save_posts [postA] [postB] = [postA] ∧ postA ∈ save_posts [postA] [postB] :=
  c10_duplicate_discarded [postA] postB postA (by decide) (by decide)

/-! ## AudioAssembler: background-bed looping in `apply_ducking`
(`src/execution/reddit_analyzer/audio_postproduction.py`, lines 42-70)

Audio is modelled at millisecond granularity: an `AudioSegment` is a list of
per-millisecond samples, so `pydub`'s `len` is `List.length` and slicing is
`take`/`drop`.  The volume adjustments (`- 10`, `+ ducking_level`) are
length-preserving and irrelevant to the looping/zoning structure. -/

/-- The loop `while len(background_music) < len(voice_track) + 5000:
background_music += background_music` (lines 46-48).  On an empty bed the
Python loop never terminates; the model returns the empty bed unchanged — the
claim assumes a bed of positive length. -/
def loopMusic {α : Type} (voiceLen : Nat) (music : List α) : List α :=
  if 0 < music.length ∧ music.length < voiceLen + 5000 then
    loopMusic voiceLen (music ++ music)
  else music
termination_by voiceLen + 5000 - music.length
decreasing_by
  simp only [List.length_append]
  omega

/-- Length recurrence of the loop. -/
def loopLen (target b : Nat) : Nat :=
  if 0 < b ∧ b < target then loopLen target (b + b) else b
termination_by target - b
decreasing_by omega

theorem loopMusic_length {α : Type} (voiceLen : Nat) (music : List α) :
    (loopMusic voiceLen music).length = loopLen (voiceLen + 5000) music.length := by
  rw [loopMusic, loopLen]
  by_cases h : 0 < music.length ∧ music.length < voiceLen + 5000
  · rw [if_pos h, if_pos h, loopMusic_length voiceLen (music ++ music)]
    congr 1
    simp
  · rw [if_neg h, if_neg h]
termination_by voiceLen + 5000 - music.length
decreasing_by
  simp only [List.length_append]
  omega

theorem loopMusic_ge {α : Type} (voiceLen : Nat) (music : List α)
    (hne : music ≠ []) :
    voiceLen + 5000 ≤ (loopMusic voiceLen music).length := by
  rw [loopMusic]
  by_cases h : 0 < music.length ∧ music.length < voiceLen + 5000
  · rw [if_pos h]
    exact loopMusic_ge voiceLen (music ++ music) (by
      intro hc
      rcases List.append_eq_nil.mp hc with ⟨h1, _⟩
      exact hne h1)
  · rw [if_neg h]
    rcases not_and_or.mp h with h1 | h2
    · exact absurd (List.length_pos.mpr hne) h1
    · exact Nat.le_of_not_lt h2
termination_by voiceLen + 5000 - music.length
decreasing_by
  simp only [List.length_append]
  omega

/-- The looped bed is obtained from the original purely by repeated
self-concatenation. -/
theorem loopMusic_doubling {α : Type} (voiceLen : Nat) (music : List α) :
    ∃ n, loopMusic voiceLen music = (fun l => l ++ l)^[n] music := by
  rw [loopMusic]
  by_cases h : 0 < music.length ∧ music.length < voiceLen + 5000
  · rw [if_pos h]
    obtain ⟨n, hn⟩ := loopMusic_doubling voiceLen (music ++ music)
    exact ⟨n + 1, by rw [Function.iterate_succ_apply]; exact hn⟩
  · rw [if_neg h]
    exact ⟨0, rfl⟩
termination_by voiceLen + 5000 - music.length
decreasing_by
  simp only [List.length_append]
  omega

/-- The three temporal zones `apply_ducking` slices the looped bed into
(lines 53-60): `background_music[:5000]`,
`background_music[5000 : len(voice_track) + 5000]` and
`background_music[len(voice_track) + 5000:]` (the gain offsets applied to the
body are length-preserving and abstracted away). -/
def duckingZones {α : Type} (voiceLen : Nat) (music : List α) :
    List α × List α × List α :=
  let bed := loopMusic voiceLen music
  (bed.take 5000, (bed.take (voiceLen + 5000)).drop 5000, bed.drop (voiceLen + 5000))

/-! ## Claim C9 -/

/-- Claim C9, confirmed.  For a background bed of positive length the
assembler doubles the bed by self-concatenation until its length is at least
the voice length plus the 5000 ms intro padding, and only the looped bed is
split into the intro / body / outro zones: the intro zone is exactly 5000 ms,
the body zone is exactly the voice length, and the three zones reassemble the
looped bed.  In particular a 3000 ms bed with a 10000 ms voice track is looped
to 24000 ms ≥ 15000 ms. -/
theorem c9_bed_looping {α : Type} (voice music : List α) (hpos : music ≠ []) :
    voice.length + 5000 ≤ (loopMusic voice.length music).length
    ∧ (∃ n, loopMusic voice.length music = (fun l => l ++ l)^[n] music)
    ∧ (duckingZones voice.length music).1.length = 5000
    ∧ (duckingZones voice.length music).2.1.length = voice.length
    ∧ (duckingZones voice.length music).1 ++ (duckingZones voice.length music).2.1
        ++ (duckingZones voice.length music).2.2 = loopMusic voice.length music
    ∧ loopLen (10000 + 5000) 3000 = 24000 ∧ 15000 ≤ 24000 := by
  have hge := loopMusic_ge voice.length music hpos
  refine ⟨hge, loopMusic_doubling voice.length music, ?_, ?_, ?_, ?_, by omega⟩
  · show (List.take 5000 (loopMusic voice.length music)).length = 5000
    rw [List.length_take]
    omega
  · show (((loopMusic voice.length music).take (voice.length + 5000)).drop 5000).length
        = voice.length
    rw [List.length_drop, List.length_take]
    omega
  · show List.take 5000 (loopMusic voice.length music)
        ++ ((loopMusic voice.length music).take (voice.length + 5000)).drop 5000
        ++ (loopMusic voice.length music).drop (voice.length + 5000)
        = loopMusic voice.length music
    have htt : List.take 5000 (loopMusic voice.length music)
        = List.take 5000 ((loopMusic voice.length music).take (voice.length + 5000)) := by
      rw [List.take_take, Nat.min_eq_left (by omega : (5000 : Nat) ≤ voice.length + 5000)]
    rw [htt,
      List.take_append_drop 5000 ((loopMusic voice.length music).take (voice.length + 5000))]
    exact List.take_append_drop _ _
  · rw [loopLen, if_pos (by omega), loopLen, if_pos (by omega), loopLen,
      if_pos (by omega), loopLen, if_neg (by omega)]

/-- Witness for C9 at a concrete input (unit samples; the scenario conjunct is
the 3000 ms bed / 10000 ms voice case). -/
theorem c9_bed_looping_witness :
    ([] : List Unit).length + 5000 ≤ (loopMusic ([] : List Unit).length [()]).length
    ∧ (∃ n, loopMusic ([] : List Unit).length [()] = (fun l => l ++ l)^[n] [()])
    ∧ (duckingZones ([] : List Unit).length [()]).1.length = 5000
    ∧ (duckingZones ([] : List Unit).length [()]).2.1.length = ([] : List Unit).length
    ∧ (duckingZones ([] : List Unit).length [()]).1
        ++ (duckingZones ([] : List Unit).length [()]).2.1
        ++ (duckingZones ([] : List Unit).length [()]).2.2
        = loopMusic ([] : List Unit).length [()]
    ∧ loopLen (10000 + 5000) 3000 = 24000 ∧ 15000 ≤ 24000 :=
  c9_bed_looping ([] : List Unit) [()] (by simp)

/-! ## CategoryPipeline and RunCoordinator: `process_category` and `main`
(`src/execution/reddit_analyzer/run_graph.py`, lines 699-799)

Python exception propagation is modelled with `Except PyErr`.  The
per-category external world (database, filesystem, providers) is abstracted
into a `CategoryEnv` record saying which node's underlying effect raises.  The
try/except structure is translated from the source: `process_category` wraps
only the reddit-image step in try/except (lines 716-723); `send_email_node`
(lines 449-453) and `upload_to_drive_node` (lines 669-695) catch their own
errors internally; every other node raises freely, and the
`for category in categories:` loop of `main` (lines 793-797) has no
try/except at all. -/

/-- A Python exception value. -/
inductive PyErr
  | fileNotFound (path : String)
  | exc (msg : String)
deriving DecidableEq

/-- Which effects raise during one category's run.  `reportExists` is the
`os.path.exists(report_path)` test of `generate_podcast_script_node`
(line 466). -/
structure CategoryEnv where
  analyzeExc : Option PyErr
  imageExc : Option PyErr
  emailExc : Option PyErr
  reportExists : Bool
  scriptExc : Option PyErr
  segmentationExc : Option PyErr
  synthExc : Option PyErr
  postprodExc : Option PyErr
  uploadExc : Option PyErr
deriving DecidableEq

/-- `analyze_ideas_node` (lines 403-424): no try/except around its db reads
and report write (`run_analysis` itself catches provider errors and returns an
error string, which still counts as a written report). -/
def analyze_ideas_node (env : CategoryEnv) : Except PyErr Unit :=
  match env.analyzeExc with
  | some e => .error e
  | none => .ok ()

/-- The optional reddit-image step (lines 716-723): the node itself may raise. -/
def generate_reddit_image_node (env : CategoryEnv) : Except PyErr Unit :=
  match env.imageExc with
  | some e => .error e
  | none => .ok ()

/-- `send_email_node` (lines 427-455): the SMTP send is inside
`try/except Exception` (449-453), so a send failure never escapes. -/
def send_email_node (env : CategoryEnv) : Except PyErr Unit :=
  match env.emailExc with
  | some _ => .ok ()
  | none => .ok ()

/-- `generate_podcast_script_node` (lines 458-518): raises `FileNotFoundError`
when the analysis report is missing (466-467) and has no exception handler. -/
def generate_podcast_script_node (env : CategoryEnv) (reportPath : String) :
    Except PyErr Unit :=
  if env.reportExists = false then .error (.fileNotFound reportPath)
  else
    match env.scriptExc with
    | some e => .error e
    | none => .ok ()

/-- `semantic_segmentation_node` (lines 521-567): no exception handler. -/
def semantic_segmentation_node (env : CategoryEnv) : Except PyErr Unit :=
  match env.segmentationExc with
  | some e => .error e
  | none => .ok ()

/-- `synthesize_podcast_audio_node` (lines 570-610): the inner
`synthesize_segment` has no try/except and `asyncio.gather` re-raises the
first failure, aborting the node. -/
def synthesize_podcast_audio_node (env : CategoryEnv) : Except PyErr Unit :=
  match env.synthExc with
  | some e => .error e
  | none => .ok ()

/-- `audio_postproduction_node` (lines 613-654): no exception handler. -/
def audio_postproduction_node (env : CategoryEnv) : Except PyErr Unit :=
  match env.postprodExc with
  | some e => .error e
  | none => .ok ()

/-- `upload_to_drive_node` (lines 657-696): everything after obtaining the
service is inside `try/except Exception` (669-694). -/
def upload_to_drive_node (env : CategoryEnv) : Except PyErr Unit :=
  match env.uploadExc with
  | some _ => .ok ()
  | none => .ok ()

/-- `process_category` (lines 699-747): the stage sequence of one category.
Only the reddit-image step is wrapped in try/except here; any other raise
propagates to the caller.  On completion it reports "Success: <category>"
(line 747). -/
def process_category (env : CategoryEnv) (cat : String) : Except PyErr String := do
  analyze_ideas_node env
  match generate_reddit_image_node env with
  | .error _ => pure ()
  | .ok _ => pure ()
  send_email_node env
  generate_podcast_script_node env ("latest_analysis_" ++ cat ++ ".md")
  semantic_segmentation_node env
  synthesize_podcast_audio_node env
  audio_postproduction_node env
  upload_to_drive_node env
  pure ("Success: " ++ cat)

/-- The `for category in categories:` loop of `main` (lines 793-797), with no
try/except around `process_category`: an uncaught exception aborts the loop.
The returned list records each completed category's terminal result. -/
def runCategories (envOf : String → CategoryEnv) : List String → Except PyErr (List String)
  | [] => .ok []
  | cat :: rest => do
    let r ← process_category (envOf cat) cat
    let rs ← runCategories envOf rest
    pure (r :: rs)

/-- The stages whose exceptions are NOT captured anywhere on the path through
`process_category` all succeed for this environment. -/
def envCoreOk (env : CategoryEnv) : Prop :=
  env.analyzeExc = none ∧ env.reportExists = true ∧ env.scriptExc = none
    ∧ env.segmentationExc = none ∧ env.synthExc = none ∧ env.postprodExc = none

theorem process_category_ok (env : CategoryEnv) (cat : String)
    (h : envCoreOk env) :
    process_category env cat = .ok ("Success: " ++ cat) := by
  obtain ⟨h1, h2, h3, h4, h5, h6⟩ := h
  cases himg : env.imageExc <;> cases heml : env.emailExc <;> cases hupl : env.uploadExc <;>
    simp [process_category, analyze_ideas_node, generate_reddit_image_node,
      send_email_node, generate_podcast_script_node, semantic_segmentation_node,
      synthesize_podcast_audio_node, audio_postproduction_node, upload_to_drive_node,
      h1, h2, h3, h4, h5, h6, himg, heml, hupl] <;>
    rfl

theorem runCategories_ok (envOf : String → CategoryEnv) :
    ∀ (cats : List String), (∀ c ∈ cats, envCoreOk (envOf c)) →
      runCategories envOf cats = .ok (cats.map (fun c => "Success: " ++ c)) := by
  intro cats
  induction cats with
  | nil => intro _; rfl
  | cons cat rest ih =>
    intro hok
    rw [runCategories]
    rw [process_category_ok (envOf cat) cat (hok cat (by simp)),
      ih (fun c hc => hok c (by simp [hc]))]
    rfl

theorem runCategories_error (envOf : String → CategoryEnv) (c : String) (e : PyErr)
    (hc : process_category (envOf c) c = .error e) :
    ∀ (pre post : List String), (∀ x ∈ pre, envCoreOk (envOf x)) →
      runCategories envOf (pre ++ c :: post) = .error e := by
  intro pre
  induction pre with
  | nil =>
    intro post _
    rw [List.nil_append, runCategories, hc]
    rfl
  | cons p pre' ih =>
    intro post hpre
    rw [List.cons_append, runCategories,
      process_category_ok (envOf p) p (hpre p (by simp)),
      ih post (fun x hx => hpre x (by simp [hx]))]
    rfl

/-! ## Claim C1 -/

/-- Claim C1, corrected.  Failures in the delivery-side steps (reddit image,
email, Drive upload) are captured by their try/except blocks and affect
nothing, and when every category's uncaptured core stages succeed the
coordinator runs every category to completion with its per-category success
result.  But the claim's failure isolation does not hold: the `main` loop has
no try/except around `process_category`, so the first category whose core
pipeline raises (for example a missing analysis report raising
`FileNotFoundError` in `generate_podcast_script_node`) aborts the whole run
with that exception — the remaining categories never execute and no
per-category results are reported (see the counterexample). -/
theorem c1_failure_isolation (envOf : String → CategoryEnv) (cats : List String) :
    ((∀ c ∈ cats, envCoreOk (envOf c)) →
        runCategories envOf cats = .ok (cats.map (fun c => "Success: " ++ c)))
    ∧ (∀ (pre : List String) (c : String) (post : List String) (e : PyErr),
        cats = pre ++ c :: post → (∀ x ∈ pre, envCoreOk (envOf x)) →
        process_category (envOf c) c = .error e →
        runCategories envOf cats = .error e) := by
  constructor
  · exact runCategories_ok envOf cats
  · intro pre c post e hcats hpre hc
    rw [hcats]
    exact runCategories_error envOf c e hc pre post hpre

/-- Per-category environment in which every effect succeeds. -/
def envOkAll : CategoryEnv := ⟨none, none, none, true, none, none, none, none, none⟩

/-- Environment whose analysis report is missing when the script node checks. -/
def envNoReport : CategoryEnv := ⟨none, none, none, false, none, none, none, none, none⟩

/-- The run environment of the counterexample: category "alpha" is missing its
analysis report, every other category is healthy. -/
def envOfW : String → CategoryEnv := fun c => if c = "alpha" then envNoReport else envOkAll

/-- Claim C1, counterexample to the claim as stated: with categories
["alpha", "beta"] where only alpha's analysis report is missing, the
coordinator run aborts with alpha's `FileNotFoundError` — beta's pipeline
(which succeeds when run alone, second conjunct) is never executed and no
per-category terminal results are reported. -/
theorem c1_counterexample :
    runCategories envOfW ["alpha", "beta"]
        = .error (.fileNotFound "latest_analysis_alpha.md")
    ∧ runCategories envOfW ["beta"] = .ok ["Success: beta"] := by
  constructor
  · rfl
  · rfl

/-- Witness for C1 at concrete inputs: both conjuncts of the corrected claim
instantiated (all-healthy categories complete; a failing category aborts the
rest of the run). -/
theorem c1_failure_isolation_witness :
    runCategories envOfW ["beta", "gamma"]
        = .ok (["beta", "gamma"].map (fun c => "Success: " ++ c))
    ∧ runCategories envOfW ["beta", "alpha", "gamma"]
        = .error (.fileNotFound "latest_analysis_alpha.md") :=
  ⟨(c1_failure_isolation envOfW ["beta", "gamma"]).1
      (by
        intro c hc
        fin_cases hc <;> simp [envOfW, envOkAll, envCoreOk]),
    (c1_failure_isolation envOfW ["beta", "alpha", "gamma"]).2
      ["beta"] "alpha" ["gamma"] (.fileNotFound "latest_analysis_alpha.md")
      rfl
      (by
        intro x hx
        fin_cases hx <;> simp [envOfW, envOkAll, envCoreOk])
      rfl⟩
